import Mathlib

/-!
Verification of `extract_categories.py` (smart-basket): a one-file program
that loads a product-category catalog from JSON, drops marketing entries by
id (top level) or by name (children, at any depth), and renders the
surviving taxonomy as a dash-indented text tree.

The embedding is shallow:

* a catalog entry (a JSON object) becomes `JNode`; the fields the program
  reads (`id`, `parent_id`, `name`, `children`) are modelled as `Option` /
  list fields.  In Python, an absent `children` key, `children = null` and
  `children = []` are all falsy at `cat.get("children")` and the key is
  only ever used through that truthiness test, so all three are modelled
  as the empty list;
* a Python `KeyError` on a mandatory subscript (`cat["name"]`, `cat["id"]`)
  becomes `Except.error`;
* `extract_category` becomes `extractCategory`/`extractChildren`
  (the inner `for child in cat["children"]` loop is the list function);
* the root-selection loop of `main` (lines 50-56) becomes `processTop`;
* `print_tree` becomes `printTree`;
* the file-system behaviour of `main` (open the output file only after the
  whole filtered forest is built) becomes the operation trace `mainTrace`.
-/

namespace SmartBasket

/-- Fatal errors of the run: Python `KeyError("name")`, `KeyError("id")`
and a stand-in for load/parse failures that happen before filtering. -/
inductive Err where
  | missingName
  | missingId
  | loadFailure
deriving DecidableEq, Repr

/-- A catalog entry as the program reads it: `id`, `parent_id` and `name`
may be absent (Python raises `KeyError` / `get` returns `None`);
`children` is the list of child entries, `[]` when absent or empty. -/
inductive JNode where
  | mk (id : Option Int) (parent_id : Option Int) (name : Option String)
      (children : List JNode)
deriving Repr

def JNode.id : JNode → Option Int
  | .mk i _ _ _ => i

def JNode.parent_id : JNode → Option Int
  | .mk _ p _ _ => p

def JNode.name : JNode → Option String
  | .mk _ _ n _ => n

def JNode.children : JNode → List JNode
  | .mk _ _ _ cs => cs

/-- An output node built by `extract_category`: always a `name`; a
`children` key is present (`some`) or absent (`none`). -/
inductive FNode where
  | mk (name : String) (children : Option (List FNode))
deriving Repr

def FNode.name : FNode → String
  | .mk n _ => n

def FNode.children : FNode → Option (List FNode)
  | .mk _ cs => cs

/-- `EXCLUDE_CATEGORY_IDS` from the source (lines 4-14). -/
def EXCLUDE_CATEGORY_IDS : List Int :=
  [11372526, 11319371, 11378741, 11379406, 11256837, 62983, 7107, 69086, 11213812]

/-- `EXCLUDE_NAMES` from the source (lines 17-26). -/
def EXCLUDE_NAMES : List String :=
  ["Все товары категории", "Все товары раздела",
   "С Петелинкой на ужин", "Мандариновая сказка", "Идеально для запекания",
   "Залить кипятком", "Домашняя выпечка"]

mutual

/-- `extract_category(cat)` (lines 28-42): read `cat["name"]`
(`KeyError` if absent), then, when `cat.get("children")` is truthy,
filter the children; attach them only when the filtered list is
non-empty. -/
def extractCategory : JNode → Except Err FNode
  | JNode.mk _ _ none _ => .error .missingName
  | JNode.mk _ _ (some nm) cs =>
    if cs.isEmpty then .ok (FNode.mk nm none)
    else
      match extractChildren cs with
      | .error e => .error e
      | .ok fcs => .ok (FNode.mk nm (if fcs.isEmpty then none else some fcs))

/-- The `for child in cat["children"]` loop of `extract_category`
(lines 33-38): read `child["name"]` (`KeyError` if absent), skip the
child when its name is in `EXCLUDE_NAMES`, otherwise recurse. -/
def extractChildren : List JNode → Except Err (List FNode)
  | [] => .ok []
  | c :: rest =>
    match c.name with
    | none => .error .missingName
    | some cn =>
      if EXCLUDE_NAMES.contains cn then extractChildren rest
      else
        match extractCategory c with
        | .error e => .error e
        | .ok fc =>
          match extractChildren rest with
          | .error e => .error e
          | .ok frest => .ok (fc :: frest)

end

/-- The root-selection loop of `main` (lines 50-56): for each top-level
entry, read `cat["id"]` (`KeyError` if absent), skip it when the id is in
`EXCLUDE_CATEGORY_IDS`, and extract it when `cat.get("parent_id") == 0`. -/
def processTop : List JNode → Except Err (List FNode)
  | [] => .ok []
  | c :: rest =>
    match c.id with
    | none => .error .missingId
    | some i =>
      if EXCLUDE_CATEGORY_IDS.contains i then processTop rest
      else if c.parent_id == some 0 then
        match extractCategory c with
        | .error e => .error e
        | .ok fc =>
          match processTop rest with
          | .error e => .error e
          | .ok frest => .ok (fc :: frest)
      else processTop rest

/-- `"-" * n`. -/
def dashes (n : Nat) : String := String.mk (List.replicate n '-')

/-- `print_tree(cats, level)` (lines 59-67), as the list of lines it
writes: one line `"-" * (level + 1) + cat["name"]` per node, then the
node's children (when the `children` key is present) one level deeper,
then the remaining siblings. -/
def printTree : List FNode → Nat → List String
  | [], _ => []
  | FNode.mk nm copt :: rest, level =>
    (dashes (level + 1) ++ nm)
      :: ((match copt with
            | some cs => printTree cs (level + 1)
            | none => []) ++ printTree rest level)

/-- The parsed input document: the `categories` field of the JSON object. -/
structure Catalog where
  categories : List JNode
deriving Repr

/-- The filter-and-render pass of `main`: select and filter the roots,
then render; the result is the list of lines written to
`product_categories.txt` (and echoed to the console). -/
def mainRun (d : Catalog) : Except Err (List String) :=
  match processTop d.categories with
  | .error e => .error e
  | .ok forest => .ok (printTree forest 0)

/-- The exact text of the output file on a successful run: every line is
newline-terminated. -/
def outputText (d : Catalog) : Option String :=
  match mainRun d with
  | .error _ => none
  | .ok lines => some (String.join (lines.map (fun s => s ++ "\n")))

/-- Operations `main` performs on the output file `product_categories.txt`:
`openOutput` is `open("product_categories.txt", "w")` (creates or
truncates the file), `writeLine s` is `file.write(s + "\n")`. -/
inductive FsOp where
  | openOutput
  | writeLine (s : String)
deriving DecidableEq, Repr

/-- The trace of output-file operations of one run of `main`, starting
from the result of the load/parse phase (lines 45-46): a load failure, or
any error raised while filtering (lines 50-56), aborts the run before
line 69 opens the output file. -/
def mainTrace (parsed : Except Err Catalog) : List FsOp × Option Err :=
  match parsed with
  | .error e => ([], some e)
  | .ok d =>
    match processTop d.categories with
    | .error e => ([], some e)
    | .ok forest =>
      (FsOp.openOutput :: (printTree forest 0).map FsOp.writeLine, none)

/- ------------------------------------------------------------------
Measurement functions (spec side): sizes for mutual induction, the names
occurring in an output tree, well-formedness of output trees, plain tree
shapes for the round-trip claim, and a renderer written from the words of
the rendering contract.
------------------------------------------------------------------ -/

mutual

/-- Size of a catalog entry; its induction principle is the mutual
structural induction used throughout. -/
def nodeSize : JNode → Nat
  | JNode.mk _ _ _ cs => 1 + forestSize cs

def forestSize : List JNode → Nat
  | [] => 0
  | c :: rest => nodeSize c + forestSize rest

end

mutual

/-- Size of an output node; used only for its induction principle. -/
def fnodeSize : FNode → Nat
  | FNode.mk _ none => 1
  | FNode.mk _ (some cs) => 1 + fforestSize cs

def fforestSize : List FNode → Nat
  | [] => 0
  | c :: rest => fnodeSize c + fforestSize rest

end

mutual

/-- All names occurring in an output forest (each node and its
descendants). -/
def forestNames : List FNode → List String
  | [] => []
  | FNode.mk nm none :: rest => nm :: forestNames rest
  | FNode.mk nm (some cs) :: rest => nm :: (forestNames cs ++ forestNames rest)

end

/-- Names of the strict descendants of an output node (everything below
it, excluding the node itself). -/
def FNode.subNames : FNode → List String
  | .mk _ none => []
  | .mk _ (some cs) => forestNames cs

mutual

/-- The output-tree invariant of the spec: a `children` key, when
present, holds a non-empty list, recursively. -/
def wellFormedF : FNode → Bool
  | FNode.mk _ none => true
  | FNode.mk _ (some cs) => !cs.isEmpty && wfForest cs

def wfForest : List FNode → Bool
  | [] => true
  | f :: rest => wellFormedF f && wfForest rest

end

/-- A plain rose tree: the shape of a category tree once `id` and
`parent_id` are ignored. -/
inductive PTree where
  | node (name : String) (children : List PTree)
deriving Repr

mutual

/-- Shape of an input entry, keeping only names and nesting (absent
names map to `""`; the round-trip theorem only uses this under a
hypothesis that rules that case out). -/
def JNode.shapeD : JNode → PTree
  | JNode.mk _ _ nm cs => PTree.node (nm.getD "") (shapeForest cs)

def shapeForest : List JNode → List PTree
  | [] => []
  | c :: rest => JNode.shapeD c :: shapeForest rest

end

mutual

/-- Shape of an output node: names and nesting (an absent `children` key
is an empty child list). -/
def FNode.shape : FNode → PTree
  | FNode.mk nm none => PTree.node nm []
  | FNode.mk nm (some cs) => PTree.node nm (fshapeForest cs)

def fshapeForest : List FNode → List PTree
  | [] => []
  | c :: rest => FNode.shape c :: fshapeForest rest

end

mutual

/-- Input subtree containing a `name` at every node and no name from
`EXCLUDE_NAMES` anywhere. -/
def cleanTree : JNode → Bool
  | JNode.mk _ _ none _ => false
  | JNode.mk _ _ (some nm) cs => !EXCLUDE_NAMES.contains nm && cleanForest cs

def cleanForest : List JNode → Bool
  | [] => true
  | c :: rest => cleanTree c && cleanForest rest

end

/-- The root-selection predicate as the spec's contract words it: the
entry's `parent_id` equals zero and its `id` is not a member of the
id-exclusion set. -/
def isKeptRoot (c : JNode) : Bool :=
  (c.parent_id == some 0) &&
    !(match c.id with
      | some i => EXCLUDE_CATEGORY_IDS.contains i
      | none => false)

/-- The line the rendering contract prescribes for a node at a given
depth: the character `-` repeated `depth + 1` times, immediately followed
by the node's name, no separator. -/
def specLine (depth : Nat) (nm : String) : String :=
  String.mk (List.replicate (depth + 1) '-') ++ nm

mutual

/-- Renderer written from the words of the rendering contract: a
pre-order depth-first traversal in which each visited node contributes
exactly one line, and a node's children (one level deeper) come
immediately after the node, before any of its siblings. -/
def specRenderNode : Nat → FNode → List String
  | depth, FNode.mk nm none => [specLine depth nm]
  | depth, FNode.mk nm (some cs) =>
    specLine depth nm :: specRenderForest (depth + 1) cs

def specRenderForest : Nat → List FNode → List String
  | _, [] => []
  | depth, f :: rest => specRenderNode depth f ++ specRenderForest depth rest

end

/- ------------------------------------------------------------------
Helper lemmas
------------------------------------------------------------------ -/

/-- C7: for every run, any failure while loading, parsing or filtering
leaves the output-file trace empty (the file is never created or
touched); otherwise the trace opens the file once and writes precisely
the full rendered tree. -/
theorem output_is_atomic (parsed : Except Err Catalog) :
    ((mainTrace parsed).1 = [] ∧ ∃ e, (mainTrace parsed).2 = some e) ∨
    (∃ d forest, parsed = .ok d ∧ processTop d.categories = .ok forest ∧
      (mainTrace parsed).1 =
        FsOp.openOutput :: (printTree forest 0).map FsOp.writeLine ∧
      (mainTrace parsed).2 = none) := by
  match parsed with
  | .error e =>
    exact Or.inl ⟨by simp [mainTrace], e, by simp [mainTrace]⟩
  | .ok d =>
    match h : processTop d.categories with
    | .error e =>
      exact Or.inl ⟨by simp [mainTrace, h], e, by simp [mainTrace, h]⟩
    | .ok forest =>
      exact Or.inr ⟨d, forest, rfl, h, by simp [mainTrace, h], by simp [mainTrace, h]⟩

/-- C9: the filter-and-render pass is a pure function of the parsed
document — it consults no clock, environment or other external state in
the embedding, exactly as the source reads nothing but `categories.json`
— so two runs on the same input produce the same result value and
byte-for-byte the same output text. -/
theorem run_deterministic (d₁ d₂ : Catalog) (h : d₁ = d₂) :
    mainRun d₁ = mainRun d₂ ∧ outputText d₁ = outputText d₂ := by
  subst h; exact ⟨rfl, rfl⟩

theorem run_deterministic_witness :
    (Catalog.mk [JNode.mk (some 1) (some 0) (some "Фрукты") []]) =
      (Catalog.mk [JNode.mk (some 1) (some 0) (some "Фрукты") []]) ∧
    mainRun (Catalog.mk [JNode.mk (some 1) (some 0) (some "Фрукты") []]) =
      mainRun (Catalog.mk [JNode.mk (some 1) (some 0) (some "Фрукты") []]) ∧
    outputText (Catalog.mk [JNode.mk (some 1) (some 0) (some "Фрукты") []]) =
      outputText (Catalog.mk [JNode.mk (some 1) (some 0) (some "Фрукты") []]) :=
  ⟨rfl, run_deterministic _ _ rfl⟩

/-- C10: `main` reads `cat["id"]` (line 52) before the `parent_id` root
check (line 55), so a top-level entry lacking an `id` makes the run fail
even when its `parent_id` is non-zero; with no earlier failing entry the
error is precisely the missing-id `KeyError`. -/
theorem id_read_before_root_check (pre post : List JNode) (c : JNode)
    (hid : c.id = none) (hp : c.parent_id ≠ some 0) :
    (∃ e, processTop (pre ++ c :: post) = .error e) ∧
    processTop (c :: post) = .error .missingId := by
  constructor
  · induction pre with
    | nil => exact ⟨.missingId, by simp [processTop, hid]⟩
    | cons hd tl ih =>
      obtain ⟨e, he⟩ := ih
      cases hhd : hd.id with
      | none => exact ⟨.missingId, by simp [processTop, hhd]⟩
      | some i =>
        by_cases hex : i ∈ EXCLUDE_CATEGORY_IDS
        · exact ⟨e, by simp [processTop, hhd, hex, he]⟩
        · by_cases hroot : hd.parent_id = some 0
          · cases hcat : extractCategory hd with
            | error e2 =>
              exact ⟨e2, by simp [processTop, hhd, hex, hroot, hcat]⟩
            | ok fc =>
              exact ⟨e, by simp [processTop, hhd, hex, hroot, hcat, he]⟩
          · exact ⟨e, by simp [processTop, hhd, hex, hroot, he]⟩
  · simp [processTop, hid]

theorem id_read_before_root_check_witness :
    (∃ e, processTop ([] ++ JNode.mk none (some 5) (some "Овощи") [] :: []) =
      .error e) ∧
    processTop [JNode.mk none (some 5) (some "Овощи") []] = .error .missingId :=
  id_read_before_root_check [] [] (JNode.mk none (some 5) (some "Овощи") [])
    rfl (by decide)

/-- C2: id-based exclusion applies only at the top level: a top-level
entry whose id is in the id-exclusion set is skipped outright (removing
it from the document changes nothing), while the filter below the roots
never consults ids — a child whose id is in the set is processed exactly
like any other child as long as its name is not excluded. -/
theorem id_exclusion_root_only (pre post : List JNode) (c : JNode) (i : Int)
    (hid : c.id = some i) (hmem : i ∈ EXCLUDE_CATEGORY_IDS) :
    processTop (pre ++ c :: post) = processTop (pre ++ post) ∧
    (∀ (nm : String) (rest : List JNode), c.name = some nm →
      nm ∉ EXCLUDE_NAMES →
      extractChildren (c :: rest) = do
        let fc ← extractCategory c
        let frest ← extractChildren rest
        pure (fc :: frest)) := by
  constructor
  · induction pre with
    | nil => simp [processTop, hid, hmem]
    | cons hd tl ih =>
      cases hhd : hd.id with
      | none => simp [processTop, hhd]
      | some j =>
        by_cases hex : j ∈ EXCLUDE_CATEGORY_IDS
        · simp [processTop, hhd, hex, ih]
        · by_cases hroot : hd.parent_id = some 0
          · cases hcat : extractCategory hd with
            | error e2 => simp [processTop, hhd, hex, hroot, hcat]
            | ok fc => simp [processTop, hhd, hex, hroot, hcat, ih]
          · simp [processTop, hhd, hex, hroot, ih]
  · intro nm rest hnm hnex
    cases hc : extractCategory c with
    | error e =>
      simp [extractChildren, hnm, hnex, hc, Bind.bind, Except.bind]
    | ok fc =>
      cases hr : extractChildren rest with
      | error e =>
        simp [extractChildren, hnm, hnex, hc, hr, Bind.bind, Except.bind]
      | ok fr =>
        simp [extractChildren, hnm, hnex, hc, hr, Bind.bind, Except.bind,
          Pure.pure, Except.pure]

theorem id_exclusion_root_only_witness :
    processTop ([] ++ JNode.mk (some 69086) (some 7) (some "Sale") [] :: []) =
      processTop ([] ++ []) ∧
    extractChildren [JNode.mk (some 69086) (some 7) (some "Sale") []] = (do
      let fc ← extractCategory (JNode.mk (some 69086) (some 7) (some "Sale") [])
      let frest ← extractChildren ([] : List JNode)
      pure (fc :: frest)) :=
  ⟨(id_exclusion_root_only [] [] (JNode.mk (some 69086) (some 7) (some "Sale") [])
      69086 rfl (by decide)).1,
   (id_exclusion_root_only [] [] (JNode.mk (some 69086) (some 7) (some "Sale") [])
      69086 rfl (by decide)).2 "Sale" [] rfl (by decide)⟩

/-- C3: on a successful run the roots that get filtered are exactly the
top-level entries with `parent_id = 0` whose id is outside the
id-exclusion set, in original document order: extracting precisely that
sublist reproduces the output forest. -/
theorem root_selection (cats : List JNode) (forest : List FNode)
    (h : processTop cats = .ok forest) :
    (cats.filter isKeptRoot).mapM extractCategory = .ok forest := by
  induction cats generalizing forest with
  | nil =>
    simp [processTop] at h
    subst h; rfl
  | cons c rest ih =>
    cases hid : c.id with
    | none => simp [processTop, hid] at h
    | some i =>
      by_cases hex : i ∈ EXCLUDE_CATEGORY_IDS
      · have hk : isKeptRoot c = false := by
          simp [isKeptRoot, hid, hex]
        rw [List.filter_cons_of_neg (by simp [hk])]
        exact ih forest (by simpa [processTop, hid, hex] using h)
      · by_cases hroot : c.parent_id = some 0
        · have hk : isKeptRoot c = true := by
            simp [isKeptRoot, hid, hex, hroot]
          rw [List.filter_cons_of_pos (by simp [hk])]
          cases hc : extractCategory c with
          | error e => simp [processTop, hid, hex, hroot, hc] at h
          | ok fc =>
            cases hr : processTop rest with
            | error e => simp [processTop, hid, hex, hroot, hc, hr] at h
            | ok fr =>
              simp [processTop, hid, hex, hroot, hc, hr] at h
              subst h
              rw [List.mapM_cons, hc, ih fr hr]
              rfl
        · have hk : isKeptRoot c = false := by
            simp [isKeptRoot, hroot]
          rw [List.filter_cons_of_neg (by simp [hk])]
          exact ih forest (by simpa [processTop, hid, hex, hroot] using h)

theorem root_selection_witness :
    processTop
      [JNode.mk (some 1) (some 0) (some "Фрукты")
         [JNode.mk none none (some "Яблоки") []],
       JNode.mk (some 11372526) (some 0) (some "Промо") [],
       JNode.mk (some 2) (some 1) (some "Не корень") []] =
      .ok [FNode.mk "Фрукты" (some [FNode.mk "Яблоки" none])] ∧
    ([JNode.mk (some 1) (some 0) (some "Фрукты")
        [JNode.mk none none (some "Яблоки") []],
      JNode.mk (some 11372526) (some 0) (some "Промо") [],
      JNode.mk (some 2) (some 1) (some "Не корень") []].filter
        isKeptRoot).mapM extractCategory =
      .ok [FNode.mk "Фрукты" (some [FNode.mk "Яблоки" none])] := by
  refine ⟨?_, ?_⟩
  · simp [processTop, extractCategory, extractChildren, EXCLUDE_CATEGORY_IDS,
      EXCLUDE_NAMES, JNode.id, JNode.parent_id, JNode.name]
  · exact root_selection _ _ (by
      simp [processTop, extractCategory, extractChildren, EXCLUDE_CATEGORY_IDS,
        EXCLUDE_NAMES, JNode.id, JNode.parent_id, JNode.name])

theorem forestNames_eq (f : FNode) (rest : List FNode) :
    forestNames (f :: rest) = f.name :: (f.subNames ++ forestNames rest) := by
  cases f with
  | mk nm copt => cases copt <;> simp [forestNames, FNode.subNames, FNode.name]

theorem extractCategory_name (n : JNode) (f : FNode)
    (h : extractCategory n = .ok f) : n.name = some f.name := by
  cases n with
  | mk i p nmo cs =>
    cases nmo with
    | none => simp [extractCategory] at h
    | some s =>
      by_cases hcs : cs.isEmpty
      · simp [extractCategory, hcs] at h
        rw [← h]
        simp [JNode.name, FNode.name]
      · cases hec : extractChildren cs with
        | error e => simp [extractCategory, hcs, hec] at h
        | ok fcs =>
          simp [extractCategory, hcs, hec] at h
          rw [← h]
          simp [JNode.name, FNode.name]

theorem no_excluded_node_step (i p : Option Int) (nmo : Option String)
    (cs : List JNode)
    (hQ : ∀ fl, extractChildren cs = .ok fl →
      ∀ s ∈ forestNames fl, s ∉ EXCLUDE_NAMES) :
    ∀ f, extractCategory (JNode.mk i p nmo cs) = .ok f →
      ∀ s ∈ FNode.subNames f, s ∉ EXCLUDE_NAMES := by
  intro f hf s hs
  cases nmo with
  | none => simp [extractCategory] at hf
  | some s0 =>
    by_cases hcs : cs.isEmpty
    · simp [extractCategory, hcs] at hf
      rw [← hf] at hs
      simp [FNode.subNames] at hs
    · cases hec : extractChildren cs with
      | error e => simp [extractCategory, hcs, hec] at hf
      | ok fcs =>
        by_cases hfc : fcs.isEmpty
        · simp [extractCategory, hcs, hec, hfc] at hf
          rw [← hf] at hs
          simp [FNode.subNames] at hs
        · simp [extractCategory, hcs, hec, hfc] at hf
          rw [← hf] at hs
          simp [FNode.subNames] at hs
          exact hQ fcs hec s hs

theorem extractChildren_no_excluded :
    ∀ l : List JNode, ∀ fl, extractChildren l = .ok fl →
      ∀ s ∈ forestNames fl, s ∉ EXCLUDE_NAMES :=
  forestSize.induct
    (fun n => ∀ f, extractCategory n = .ok f →
      ∀ s ∈ FNode.subNames f, s ∉ EXCLUDE_NAMES)
    (fun l => ∀ fl, extractChildren l = .ok fl →
      ∀ s ∈ forestNames fl, s ∉ EXCLUDE_NAMES)
    (fun i p nmo cs hQ => no_excluded_node_step i p nmo cs hQ)
    (by
      intro fl hfl s hs
      simp [extractChildren] at hfl
      subst hfl
      simp [forestNames] at hs)
    (by
      intro c rest hP hQ fl hfl s hs
      cases hcn : c.name with
      | none => simp [extractChildren, hcn] at hfl
      | some cn =>
        by_cases hex : cn ∈ EXCLUDE_NAMES
        · simp [extractChildren, hcn, hex] at hfl
          exact hQ fl hfl s hs
        · cases hc : extractCategory c with
          | error e => simp [extractChildren, hcn, hex, hc] at hfl
          | ok fc =>
            cases hr : extractChildren rest with
            | error e => simp [extractChildren, hcn, hex, hc, hr] at hfl
            | ok fr =>
              simp [extractChildren, hcn, hex, hc, hr] at hfl
              rw [← hfl] at hs
              rw [forestNames_eq] at hs
              simp at hs
              rcases hs with hs | hs | hs
              · have hn := extractCategory_name c fc hc
                rw [hcn] at hn
                have : cn = fc.name := by
                  injection hn
                subst hs
                rw [← this]
                exact hex
              · exact hP fc hc s hs
              · exact hQ fr hr s hs)

theorem extractCategory_no_excluded (n : JNode) (f : FNode)
    (h : extractCategory n = .ok f) :
    ∀ s ∈ FNode.subNames f, s ∉ EXCLUDE_NAMES := by
  cases n with
  | mk i p nmo cs =>
    exact no_excluded_node_step i p nmo cs
      (fun fl hfl => extractChildren_no_excluded cs fl hfl) f h

/-- C1 as stated is false on the code: name-based exclusion is only ever
checked on children (line 36), never on the node `extract_category` is
called with, so a root-level entry whose name is in `EXCLUDE_NAMES`
survives and its name appears in the output. -/
theorem name_excluded_root_in_output :
    "Все товары категории" ∈ EXCLUDE_NAMES ∧
    mainRun (Catalog.mk
        [JNode.mk (some 1) (some 0) (some "Все товары категории") []]) =
      .ok ["-Все товары категории"] := by
  constructor
  · decide
  · simp [mainRun, processTop, extractCategory, printTree, dashes,
      EXCLUDE_CATEGORY_IDS, JNode.id, JNode.parent_id]

/-- C1 amended: no name from the name-exclusion set appears in the
output strictly below a root — any non-root node whose name is in the
set is omitted together with its subtree, at any depth — but root-level
entries are not name-checked (only id-checked). -/
theorem no_excluded_names_below_roots (cats : List JNode)
    (forest : List FNode) (h : processTop cats = .ok forest) :
    ∀ f ∈ forest, ∀ s ∈ FNode.subNames f, s ∉ EXCLUDE_NAMES := by
  induction cats generalizing forest with
  | nil =>
    simp [processTop] at h
    subst h; simp
  | cons c rest ih =>
    cases hid : c.id with
    | none => simp [processTop, hid] at h
    | some i =>
      by_cases hex : i ∈ EXCLUDE_CATEGORY_IDS
      · exact ih forest (by simpa [processTop, hid, hex] using h)
      · by_cases hroot : c.parent_id = some 0
        · cases hc : extractCategory c with
          | error e => simp [processTop, hid, hex, hroot, hc] at h
          | ok fc =>
            cases hr : processTop rest with
            | error e => simp [processTop, hid, hex, hroot, hc, hr] at h
            | ok fr =>
              simp [processTop, hid, hex, hroot, hc, hr] at h
              subst h
              intro f hf
              rcases List.mem_cons.mp hf with hf | hf
              · subst hf
                exact extractCategory_no_excluded c f hc
              · exact ih fr hr f hf
        · exact ih forest (by simpa [processTop, hid, hex, hroot] using h)

theorem no_excluded_names_below_roots_witness :
    processTop
      [JNode.mk (some 1) (some 0) (some "Фрукты")
        [JNode.mk none none (some "Все товары категории") [],
         JNode.mk none none (some "Яблоки") []]] =
      .ok [FNode.mk "Фрукты" (some [FNode.mk "Яблоки" none])] ∧
    FNode.mk "Фрукты" (some [FNode.mk "Яблоки" none]) ∈
      [FNode.mk "Фрукты" (some [FNode.mk "Яблоки" none])] ∧
    "Яблоки" ∈ FNode.subNames
      (FNode.mk "Фрукты" (some [FNode.mk "Яблоки" none])) ∧
    "Яблоки" ∉ EXCLUDE_NAMES := by
  have h : processTop
      [JNode.mk (some 1) (some 0) (some "Фрукты")
        [JNode.mk none none (some "Все товары категории") [],
         JNode.mk none none (some "Яблоки") []]] =
      .ok [FNode.mk "Фрукты" (some [FNode.mk "Яблоки" none])] := by
    simp [processTop, extractCategory, extractChildren, EXCLUDE_CATEGORY_IDS,
      EXCLUDE_NAMES, JNode.id, JNode.parent_id, JNode.name]
  refine ⟨h, by simp, by simp [FNode.subNames, forestNames], ?_⟩
  exact no_excluded_names_below_roots _ _ h
    (FNode.mk "Фрукты" (some [FNode.mk "Яблоки" none])) (by simp)
    "Яблоки" (by simp [FNode.subNames, forestNames])

/-- C4: `print_tree` realizes the rendering contract exactly: the line
sequence is a pre-order depth-first traversal, each visited node
contributing exactly one line of `'-'` repeated `(depth + 1)` times
immediately followed by its name, a node's children (one level deeper)
coming immediately after the node and before any of its siblings. -/
theorem render_matches_contract :
    ∀ (forest : List FNode) (level : Nat),
      printTree forest level = specRenderForest level forest :=
  fforestSize.induct
    (fun f => ∀ level, printTree [f] level = specRenderNode level f)
    (fun l => ∀ level, printTree l level = specRenderForest level l)
    (fun nm => by
      intro level
      simp [printTree, specRenderNode, specRenderForest, specLine, dashes])
    (fun nm cs hQ => by
      intro level
      simp [printTree, specRenderNode, specRenderForest, specLine, dashes, hQ])
    (by
      intro level
      simp [printTree, specRenderForest])
    (fun c rest hP hQ => by
      intro level
      cases c with
      | mk nm copt =>
        cases copt with
        | none =>
          simp [printTree, specRenderForest, specRenderNode, specLine,
            dashes, hQ]
        | some cs =>
          have hc : printTree cs (level + 1) = specRenderForest (level + 1) cs := by
            have h1 := hP level
            exact (by simpa [printTree, specRenderNode] using h1 :
              dashes (level + 1) ++ nm = specLine level nm ∧
              printTree cs (level + 1) = specRenderForest (level + 1) cs).2
          simp [printTree, specRenderForest, specRenderNode, specLine,
            dashes, hQ, hc])

theorem wf_node_step (i p : Option Int) (nmo : Option String)
    (cs : List JNode)
    (hQ : ∀ fl, extractChildren cs = .ok fl → wfForest fl = true) :
    ∀ f, extractCategory (JNode.mk i p nmo cs) = .ok f →
      wellFormedF f = true := by
  intro f hf
  cases nmo with
  | none => simp [extractCategory] at hf
  | some s0 =>
    by_cases hcs : cs.isEmpty
    · simp [extractCategory, hcs] at hf
      rw [← hf]
      simp [wellFormedF]
    · cases hec : extractChildren cs with
      | error e => simp [extractCategory, hcs, hec] at hf
      | ok fcs =>
        by_cases hfc : fcs.isEmpty
        · simp [extractCategory, hcs, hec, hfc] at hf
          rw [← hf]
          simp [wellFormedF]
        · simp [extractCategory, hcs, hec, hfc] at hf
          rw [← hf]
          simp [wellFormedF, hfc]
          exact hQ fcs hec

theorem extractChildren_wellFormed :
    ∀ l : List JNode, ∀ fl, extractChildren l = .ok fl →
      wfForest fl = true :=
  forestSize.induct
    (fun n => ∀ f, extractCategory n = .ok f → wellFormedF f = true)
    (fun l => ∀ fl, extractChildren l = .ok fl → wfForest fl = true)
    (fun i p nmo cs hQ => wf_node_step i p nmo cs hQ)
    (by
      intro fl hfl
      simp [extractChildren] at hfl
      subst hfl
      simp [wfForest])
    (by
      intro c rest hP hQ fl hfl
      cases hcn : c.name with
      | none => simp [extractChildren, hcn] at hfl
      | some cn =>
        by_cases hex : cn ∈ EXCLUDE_NAMES
        · simp [extractChildren, hcn, hex] at hfl
          exact hQ fl hfl
        · cases hc : extractCategory c with
          | error e => simp [extractChildren, hcn, hex, hc] at hfl
          | ok fc =>
            cases hr : extractChildren rest with
            | error e => simp [extractChildren, hcn, hex, hc, hr] at hfl
            | ok fr =>
              simp [extractChildren, hcn, hex, hc, hr] at hfl
              rw [← hfl]
              simp [wfForest, hP fc hc, hQ fr hr])

theorem all_excluded_children_ok (cs : List JNode)
    (h : ∀ c ∈ cs, ∃ s, JNode.name c = some s ∧ s ∈ EXCLUDE_NAMES) :
    extractChildren cs = .ok [] := by
  induction cs with
  | nil => simp [extractChildren]
  | cons c rest ih =>
    obtain ⟨s, hs, hmem⟩ := h c (List.mem_cons_self c rest)
    simp [extractChildren, hs, hmem]
    exact ih (fun c' hc' => h c' (List.mem_cons_of_mem c hc'))

/-- C5: every node of a tree built by the branch filter either has no
`children` key or a non-empty children list; and a node all of whose
children are name-excluded extracts to exactly the same value as the
same node with no children at all, so the two render identically. -/
theorem filtered_tree_invariant :
    (∀ (n : JNode) (f : FNode), extractCategory n = .ok f →
      wellFormedF f = true) ∧
    (∀ (i p : Option Int) (nm : String) (cs : List JNode),
      (∀ c ∈ cs, ∃ s, JNode.name c = some s ∧ s ∈ EXCLUDE_NAMES) →
      extractCategory (JNode.mk i p (some nm) cs) = .ok (FNode.mk nm none) ∧
      extractCategory (JNode.mk i p (some nm) cs) =
        extractCategory (JNode.mk i p (some nm) [])) := by
  constructor
  · intro n f hf
    cases n with
    | mk i p nmo cs =>
      exact wf_node_step i p nmo cs
        (fun fl hfl => extractChildren_wellFormed cs fl hfl) f hf
  · intro i p nm cs h
    have hok : extractCategory (JNode.mk i p (some nm) cs) =
        .ok (FNode.mk nm none) := by
      by_cases hcs : cs.isEmpty
      · simp [extractCategory, hcs]
      · simp [extractCategory, hcs, all_excluded_children_ok cs h]
    exact ⟨hok, by rw [hok]; simp [extractCategory]⟩

theorem filtered_tree_invariant_witness :
    extractCategory
      (JNode.mk none none (some "Leaf")
        [JNode.mk none none (some "С Петелинкой на ужин") []]) =
      .ok (FNode.mk "Leaf" none) ∧
    extractCategory
      (JNode.mk none none (some "Leaf")
        [JNode.mk none none (some "С Петелинкой на ужин") []]) =
      extractCategory (JNode.mk none none (some "Leaf") []) ∧
    wellFormedF (FNode.mk "Leaf" none) = true := by
  have h := filtered_tree_invariant.2 none none "Leaf"
    [JNode.mk none none (some "С Петелинкой на ужин") []]
    (by
      intro c hc
      simp at hc
      subst hc
      exact ⟨"С Петелинкой на ужин", rfl, by decide⟩)
  exact ⟨h.1, h.2, filtered_tree_invariant.1 _ _ h.1⟩

/-- C6 as stated is false on the code: a category entry lacking a `name`
is fatal only when the filter visits it. A top-level entry that is not a
root is skipped after reading only its `id` and `parent_id`, so a
document whose only entry lacks a name runs to completion. -/
theorem missing_name_not_always_fatal :
    JNode.name (JNode.mk (some 5) (some 1) none []) = none ∧
    mainRun (Catalog.mk [JNode.mk (some 5) (some 1) none []]) = .ok [] ∧
    outputText (Catalog.mk [JNode.mk (some 5) (some 1) none []]) = some "" := by
  refine ⟨rfl, ?_, ?_⟩ <;>
    simp [mainRun, outputText, processTop, printTree, String.join,
      EXCLUDE_CATEGORY_IDS, JNode.id, JNode.parent_id]

/-- C6 amended: a missing `name` is a fatal input-format error, never
silently defaulted, for every entry the filter actually visits: the node
the branch filter is applied to, every direct child it examines, and in
particular every selected root (there the run as a whole fails). -/
theorem missing_name_fatal_when_visited :
    (∀ n : JNode, JNode.name n = none →
      extractCategory n = .error .missingName) ∧
    (∀ (c : JNode) (rest : List JNode), JNode.name c = none →
      extractChildren (c :: rest) = .error .missingName) ∧
    (∀ (pre post : List JNode) (c : JNode) (i : Int), c.id = some i →
      i ∉ EXCLUDE_CATEGORY_IDS → c.parent_id = some 0 → c.name = none →
      ∃ e, processTop (pre ++ c :: post) = .error e) := by
  refine ⟨?_, ?_, ?_⟩
  · intro n hn
    cases n with
    | mk i p nmo cs =>
      simp [JNode.name] at hn
      subst hn
      simp [extractCategory]
  · intro c rest hn
    simp [extractChildren, hn]
  · intro pre post c i hid hex hroot hn
    induction pre with
    | nil =>
      refine ⟨.missingName, ?_⟩
      have hcat : extractCategory c = .error .missingName := by
        cases c with
        | mk i' p' nmo cs =>
          simp [JNode.name] at hn
          subst hn
          simp [extractCategory]
      simp [processTop, hid, hex, hroot, hcat]
    | cons hd tl ih =>
      obtain ⟨e, he⟩ := ih
      cases hhd : hd.id with
      | none => exact ⟨.missingId, by simp [processTop, hhd]⟩
      | some j =>
        by_cases hjex : j ∈ EXCLUDE_CATEGORY_IDS
        · exact ⟨e, by simp [processTop, hhd, hjex, he]⟩
        · by_cases hjroot : hd.parent_id = some 0
          · cases hcat : extractCategory hd with
            | error e2 =>
              exact ⟨e2, by simp [processTop, hhd, hjex, hjroot, hcat]⟩
            | ok fc =>
              exact ⟨e, by simp [processTop, hhd, hjex, hjroot, hcat, he]⟩
          · exact ⟨e, by simp [processTop, hhd, hjex, hjroot, he]⟩

theorem missing_name_fatal_when_visited_witness :
    extractCategory (JNode.mk (some 3) (some 0) none []) =
      .error .missingName ∧
    extractChildren [JNode.mk none none none []] = .error .missingName ∧
    (∃ e, processTop ([] ++ JNode.mk (some 3) (some 0) none [] :: []) =
      .error e) :=
  ⟨missing_name_fatal_when_visited.1 (JNode.mk (some 3) (some 0) none []) rfl,
   missing_name_fatal_when_visited.2.1 (JNode.mk none none none []) [] rfl,
   missing_name_fatal_when_visited.2.2 [] [] (JNode.mk (some 3) (some 0) none [])
     3 rfl (by decide) rfl rfl⟩

theorem clean_node_step (i p : Option Int) (nmo : Option String)
    (cs : List JNode)
    (hQ : cleanForest cs = true →
      ∃ fl, extractChildren cs = .ok fl ∧ fshapeForest fl = shapeForest cs) :
    cleanTree (JNode.mk i p nmo cs) = true →
      ∃ f, extractCategory (JNode.mk i p nmo cs) = .ok f ∧
        FNode.shape f = JNode.shapeD (JNode.mk i p nmo cs) := by
  intro hc
  cases nmo with
  | none => simp [cleanTree] at hc
  | some s0 =>
    simp [cleanTree] at hc
    obtain ⟨hs0, hcf⟩ := hc
    by_cases hcs : cs.isEmpty
    · have hnil : cs = [] := by
        cases cs with
        | nil => rfl
        | cons a b => simp at hcs
      subst hnil
      exact ⟨FNode.mk s0 none, by simp [extractCategory],
        by simp [FNode.shape, JNode.shapeD, shapeForest]⟩
    · obtain ⟨fl, hfl, hsh⟩ := hQ hcf
      have hflne : ¬fl.isEmpty := by
        intro habs
        have : fl = [] := by
          cases fl with
          | nil => rfl
          | cons a b => simp at habs
        subst this
        cases cs with
        | nil => simp at hcs
        | cons a b => simp [fshapeForest, shapeForest] at hsh
      refine ⟨FNode.mk s0 (some fl), ?_, ?_⟩
      · simp [extractCategory, hcs, hfl, hflne]
      · simp [FNode.shape, JNode.shapeD, hsh]

theorem extractChildren_clean_shape :
    ∀ cs : List JNode, cleanForest cs = true →
      ∃ fl, extractChildren cs = .ok fl ∧ fshapeForest fl = shapeForest cs :=
  forestSize.induct
    (fun n => cleanTree n = true →
      ∃ f, extractCategory n = .ok f ∧ FNode.shape f = JNode.shapeD n)
    (fun l => cleanForest l = true →
      ∃ fl, extractChildren l = .ok fl ∧ fshapeForest fl = shapeForest l)
    (fun i p nmo cs hQ => clean_node_step i p nmo cs hQ)
    (by
      intro _h
      exact ⟨[], by simp [extractChildren], by simp [fshapeForest, shapeForest]⟩)
    (by
      intro c rest hP hQ hcl
      simp [cleanForest] at hcl
      obtain ⟨hc, hrest⟩ := hcl
      obtain ⟨fc, hfc, hshc⟩ := hP hc
      obtain ⟨fr, hfr, hshr⟩ := hQ hrest
      have hcn : ∃ s, c.name = some s ∧ s ∉ EXCLUDE_NAMES := by
        cases c with
        | mk i' p' nmo' cs' =>
          cases nmo' with
          | none => simp [cleanTree] at hc
          | some s => exact ⟨s, rfl, by simp [cleanTree] at hc; exact hc.1⟩
      obtain ⟨s, hs, hsex⟩ := hcn
      refine ⟨fc :: fr, ?_, ?_⟩
      · simp [extractChildren, hs, hsex, hfc, hfr]
      · simp [fshapeForest, shapeForest, hshc, hshr])

theorem extractCategory_clean_shape (n : JNode) (h : cleanTree n = true) :
    ∃ f, extractCategory n = .ok f ∧ FNode.shape f = JNode.shapeD n := by
  cases n with
  | mk i p nmo cs =>
    exact clean_node_step i p nmo cs
      (fun hcf => extractChildren_clean_shape cs hcf) h

/-- C8: for a document whose top-level entries all carry an id, whose
roots carry no excluded id, and whose root subtrees are clean (every
node named, no excluded name anywhere), the run succeeds and the shape
of the output forest — names and nesting, ignoring `id`/`parent_id` —
exactly mirrors the input root-and-descendant structure in order. -/
theorem round_trip_clean (cats : List JNode)
    (hids : ∀ c ∈ cats, ∃ i, c.id = some i ∧
      (c.parent_id = some 0 → i ∉ EXCLUDE_CATEGORY_IDS))
    (hclean : ∀ c ∈ cats, c.parent_id = some 0 → cleanTree c = true) :
    ∃ forest, processTop cats = .ok forest ∧
      fshapeForest forest =
        shapeForest (cats.filter (fun c => c.parent_id == some 0)) := by
  induction cats with
  | nil => exact ⟨[], by simp [processTop], by simp [shapeForest, fshapeForest]⟩
  | cons c rest ih =>
    obtain ⟨i, hid, hex⟩ := hids c (List.mem_cons_self c rest)
    obtain ⟨forest, hf, hsh⟩ :=
      ih (fun c' hc' => hids c' (List.mem_cons_of_mem c hc'))
        (fun c' hc' => hclean c' (List.mem_cons_of_mem c hc'))
    by_cases hroot : c.parent_id = some 0
    · have hnex : i ∉ EXCLUDE_CATEGORY_IDS := hex hroot
      obtain ⟨fc, hfc, hshc⟩ :=
        extractCategory_clean_shape c (hclean c (List.mem_cons_self c rest) hroot)
      refine ⟨fc :: forest, ?_, ?_⟩
      · simp [processTop, hid, hnex, hroot, hfc, hf]
      · rw [List.filter_cons_of_pos (by simp [hroot])]
        simp [fshapeForest, shapeForest, hshc, hsh]
    · rw [List.filter_cons_of_neg (by simp [hroot])]
      by_cases hexi : i ∈ EXCLUDE_CATEGORY_IDS
      · exact ⟨forest, by simp [processTop, hid, hexi, hf], hsh⟩
      · exact ⟨forest, by simp [processTop, hid, hexi, hroot, hf], hsh⟩

theorem round_trip_clean_witness :
    (∃ forest,
      processTop
        [JNode.mk (some 1) (some 0) (some "Фрукты")
          [JNode.mk none none (some "Яблоки") [],
           JNode.mk none none (some "Груши")
             [JNode.mk none none (some "Конференция") []]],
         JNode.mk (some 2) (some 9) (some "Служебное") []] = .ok forest ∧
      fshapeForest forest =
        shapeForest
          ([JNode.mk (some 1) (some 0) (some "Фрукты")
             [JNode.mk none none (some "Яблоки") [],
              JNode.mk none none (some "Груши")
                [JNode.mk none none (some "Конференция") []]],
            JNode.mk (some 2) (some 9) (some "Служебное") []].filter
              (fun c => c.parent_id == some 0))) :=
  round_trip_clean _
    (by
      intro c hc
      simp at hc
      rcases hc with hc | hc <;> subst hc
      · exact ⟨1, rfl, fun _ => by decide⟩
      · exact ⟨2, rfl, fun h => by simp [JNode.parent_id] at h⟩)
    (by
      intro c hc
      simp at hc
      rcases hc with hc | hc <;> subst hc
      · intro _h
        simp [cleanTree, cleanForest, EXCLUDE_NAMES]
      · intro h
        simp [JNode.parent_id] at h)

end SmartBasket
